import Mathlib

set_option maxRecDepth 10000

/-!
Verification of the constraint-solving core of the crossword generator
(src/generate.py, class CrosswordCreator).  Python sets and dicts are
modelled by lists and association lists with a fixed iteration order;
machine strings by lists of characters; the worklist recursion of AC-3 and
the backtracking recursion receive explicit fuel.
-/

namespace CrosswordCSP

/-- Direction of a slot in the grid (Variable.ACROSS / Variable.DOWN in
crossword.py). -/
inductive Direction where
  | across
  | down
deriving DecidableEq

/-- Modelled from the spec: crossword.py is not part of the sources; per the
spec (section 3) a Variable identifies one slot by starting row, starting
column, direction and length, two variables being equal iff all four
attributes match. -/
structure Variable where
  i : Nat
  j : Nat
  dir : Direction
  length : Nat
deriving DecidableEq

/-- A candidate word, as its list of characters. -/
abbrev Word := List Char

/-- The domain store: the dict mapping each variable to its current candidate
set, as an association list in insertion order. -/
abbrev Domains := List (Variable × List Word)

/-- A partial assignment: the dict mapping variables to words, as an
association list in insertion order. -/
abbrev Assignment := List (Variable × Word)

/-- Modelled from the spec: the Puzzle Structure interface consumed by the
solver (spec sections 2 and 6) — the variable set, the vocabulary, the overlap
lookup returning the pair of matching indices or none, and the neighbor
query.  Lists stand for Python sets with one fixed iteration order. -/
structure Crossword where
  vars : List Variable
  words : List Word
  overlaps : Variable → Variable → Option (Nat × Nat)
  neighbors : Variable → List Variable

/-- Letter of a word at an index (Python w[i]; every use below is in bounds on
well-formed input, so the default character is arbitrary). -/
def charAt (w : Word) (i : Nat) : Char := w.getD i ' '

/-- Dict lookup assignment.get(v). -/
def aGet (a : Assignment) (v : Variable) : Option Word :=
  (a.find? fun p => decide (p.1 = v)).map Prod.snd

/-- Dict update assignment[v] = w: overwrite in place if the key is present,
otherwise append at the end (Python dicts keep insertion order). -/
def dinsert (a : Assignment) (v : Variable) (w : Word) : Assignment :=
  if (a.find? fun p => decide (p.1 = v)).isSome then
    a.map fun p => if p.1 = v then (v, w) else p
  else a ++ [(v, w)]

/-- Dict lookup self.domains[v] (the key is always present; [] is an
arbitrary default). -/
def domGet (dm : Domains) (v : Variable) : List Word :=
  ((dm.find? fun p => decide (p.1 = v)).map Prod.snd).getD []

/-- Replace the domain of v (in-place update of the dict entry). -/
def domSet (dm : Domains) (v : Variable) (ws : List Word) : Domains :=
  dm.map fun p => if p.1 = v then (v, ws) else p

/-- Embeds CrosswordCreator.__init__ (src/generate.py lines 12-16): the domain
store maps every variable to a copy of the full vocabulary. -/
def initDomains (c : Crossword) : Domains :=
  c.vars.map fun v => (v, c.words)

/-- Embeds CrosswordCreator.enforce_node_consistency (lines 96-106): for every
entry of the domain dict, remove the words whose length differs from the
variable's length (the source iterates over a copy while removing, which is
the same as keeping the filter). -/
def enforce_node_consistency (dm : Domains) : Domains :=
  dm.map fun p => (p.1, p.2.filter fun w => decide (w.length = p.1.length))

/-- The removal loop of CrosswordCreator.revise (lines 129-132): keep each word
of x whose overlap letter occurs among the compatible letters of y, and flag
whether any word was removed. -/
def reviseLoop (compat : List Char) (ix : Nat) : List Word → List Word × Bool
  | [] => ([], false)
  | w :: ws =>
    let rest := reviseLoop compat ix ws
    if compat.contains (charAt w ix) then (w :: rest.1, rest.2) else (rest.1, true)

/-- Embeds CrosswordCreator.revise (lines 108-134).  The source reads
self.crossword.overlaps[x, y] unconditionally; revise is only ever invoked on
neighbor pairs, for which the overlap exists, so the none branch is
unreachable. -/
def revise (c : Crossword) (dm : Domains) (x y : Variable) : Domains × Bool :=
  match c.overlaps x y with
  | none => (dm, false)
  | some (ix, iy) =>
    let compat := (domGet dm y).map fun wy => charAt wy iy
    let res := reviseLoop compat ix (domGet dm x)
    (domSet dm x res.1, res.2)

/-- The arcs appended by the ac3 worklist loop after a successful revision of
(x, y) (lines 162-165): one arc (x, z) — x kept as the FIRST component — for
every neighbor z of x other than y, in neighbor order. -/
def ac3Enqueue (c : Crossword) (x y : Variable) : List (Variable × Variable) :=
  ((c.neighbors x).filter fun z => decide (z ≠ y)).map fun z => (x, z)

/-- The initial arc list of CrosswordCreator.ac3 (lines 145-151): every
directed pair (x, y) with y a neighbor of x. -/
def allArcs (c : Crossword) : List (Variable × Variable) :=
  c.vars.flatMap fun x => (c.neighbors x).map fun y => (x, y)

/-- Worklist loop of CrosswordCreator.ac3 (lines 153-166).  Python pops from
the END of the list (stack discipline); the list is kept here with the top of
that stack at the head, so arcs appended at the end of the Python list arrive
reversed at the front.  Fuel makes the recursion structural; none means the
fuel ran out and never occurs in the concrete runs below. -/
def ac3Loop (c : Crossword) : Nat → Domains → List (Variable × Variable) → Option (Bool × Domains)
  | 0, _, _ => none
  | _ + 1, dm, [] => some (true, dm)
  | fuel + 1, dm, (x, y) :: rest =>
    let res := revise c dm x y
    if res.2 then
      if (domGet res.1 x).length = 0 then some (false, res.1)
      else ac3Loop c fuel res.1 ((ac3Enqueue c x y).reverse ++ rest)
    else ac3Loop c fuel res.1 rest

/-- Embeds CrosswordCreator.ac3 (lines 136-166): if no explicit arc list is
supplied, start from all arcs of the problem. -/
def ac3 (c : Crossword) (dm : Domains) (arcs : Option (List (Variable × Variable)))
    (fuel : Nat) : Option (Bool × Domains) :=
  ac3Loop c fuel dm (arcs.getD (allArcs c)).reverse

/-- Embeds CrosswordCreator.assignment_complete (lines 168-178): true iff every
crossword variable is present with a truthy (non-empty) word. -/
def assignment_complete (c : Crossword) (a : Assignment) : Bool :=
  c.vars.all fun v =>
    match aGet a v with
    | some w => !w.isEmpty
    | none => false

/-- Distinctness check of CrosswordCreator.consistent (lines 187-189):
len(set(values)) == len(values). -/
def distinctCheck (a : Assignment) : Bool :=
  decide ((a.map Prod.snd).dedup.length = (a.map Prod.snd).length)

/-- Length check of CrosswordCreator.consistent (lines 191-195): every crossword
variable present in the assignment carries a word of its length. -/
def lengthCheck (c : Crossword) (a : Assignment) : Bool :=
  !(c.vars.any fun v =>
    match aGet a v with
    | some w => decide (w.length ≠ v.length)
    | none => false)

/-- Conflict check of CrosswordCreator.consistent (lines 197-205): for every
assigned variable and every assigned neighbor, the letters at the overlap
indices agree. -/
def conflictCheck (c : Crossword) (a : Assignment) : Bool :=
  !((a.map Prod.fst).any fun v =>
    (c.neighbors v).any fun nb =>
      match c.overlaps v nb, aGet a v, aGet a nb with
      | some (i1, i2), some wv, some wn => decide (charAt wv i1 ≠ charAt wn i2)
      | _, _, _ => false)

/-- Embeds CrosswordCreator.consistent (lines 181-207): the three checks in
source order (&& has the same value as the early returns). -/
def consistent (c : Crossword) (a : Assignment) : Bool :=
  distinctCheck a && lengthCheck c a && conflictCheck c a

/-- Stable ascending insertion by a natural key: the new element goes before
the first element of larger-or-equal key. -/
def insAsc (key : α → Nat) (a : α) : List α → List α
  | [] => [a]
  | b :: bs => if key a ≤ key b then a :: b :: bs else b :: insAsc key a bs

/-- Stable ascending sort by a natural key (Python sorted(key=...)). -/
def sortAsc (key : α → Nat) : List α → List α
  | [] => []
  | a :: as => insAsc key a (sortAsc key as)

/-- Stable descending insertion by a natural key. -/
def insDesc (key : α → Nat) (a : α) : List α → List α
  | [] => [a]
  | b :: bs => if key b ≤ key a then a :: b :: bs else b :: insDesc key a bs

/-- Stable descending sort by a natural key (Python sorted(key=...,
reverse=True), which inverts the comparison and keeps ties in order). -/
def sortDesc (key : α → Nat) : List α → List α
  | [] => []
  | a :: as => insDesc key a (sortDesc key as)

/-- Elimination count of CrosswordCreator.order_domain_values (lines 227-234):
for a word w of var's domain, the number of words, over all neighbors of var
not yet in the assignment, that mismatch w at the shared overlap (the none
branch of the overlap lookup is unreachable: neighbors always have one). -/
def eliminationCount (c : Crossword) (dm : Domains) (a : Assignment)
    (var : Variable) (w : Word) : Nat :=
  (((c.neighbors var).filter fun nb => (aGet a nb).isNone).map fun nb =>
    match c.overlaps var nb with
    | some (i1, i2) => (domGet dm nb).countP fun wn => decide (charAt w i1 ≠ charAt wn i2)
    | none => 0).sum

/-- Embeds CrosswordCreator.order_domain_values (lines 209-237).  The source
tabulates each word's elimination count in a dict keyed by the word and sorts
the dict's keys (which are the domain's words in order, domains being Python
sets and hence duplicate-free) by the tabulated count with Python's stable
sort; this is the stable sort of the domain list by the count function. -/
def order_domain_values (c : Crossword) (dm : Domains) (a : Assignment)
    (var : Variable) : List Word :=
  sortAsc (eliminationCount c dm a var) (domGet dm var)

/-- Embeds CrosswordCreator.select_unassigned_variable (lines 240-266): list
the unassigned variables in variable order, sort by degree descending, then
stably by remaining domain size ascending, and take the first (the source
indexes [0], an IndexError when no variable is unassigned; that case is
modelled as none). -/
def select_unassigned_variable (c : Crossword) (dm : Domains) (a : Assignment) :
    Option Variable :=
  let unassigned := c.vars.filter fun v => (aGet a v).isNone
  let highest_degree := sortDesc (fun v => (c.neighbors v).length) unassigned
  let remaining_values := sortAsc (fun v => (domGet dm v).length) highest_degree
  remaining_values.head?

/-- The value loop of CrosswordCreator.backtrack (lines 285-293),
parameterized by the recursive search bt at the remaining depth: try each
candidate in order; `if result:` in the source tests Python truthiness, so a
returned empty dict (only possible for a puzzle without variables) falls
through like None.  The source threads one mutable dict: every tentative
entry is deleted again before the loop moves on, so passing the unchanged
assignment a to the next iteration models `del assignment[var]` exactly. -/
def tryValues (c : Crossword) (bt : Assignment → Option Assignment)
    (a : Assignment) (var : Variable) : List Word → Option Assignment
  | [] => none
  | w :: ws =>
    let a2 := dinsert a var w
    if consistent c a2 then
      match bt a2 with
      | some r => if r.isEmpty then tryValues c bt a var ws else some r
      | none => tryValues c bt a var ws
    else tryValues c bt a var ws

/-- Embeds CrosswordCreator.backtrack (lines 268-294).  Fuel makes the
recursion structural; every concrete run below carries enough fuel. -/
def backtrack (c : Crossword) (dm : Domains) : Nat → Assignment → Option Assignment
  | 0, _ => none
  | fuel + 1, a =>
    if assignment_complete c a then some a
    else
      match select_unassigned_variable c dm a with
      | none => none
      | some var =>
        tryValues c (backtrack c dm fuel) a var (order_domain_values c dm a var)

/-- Embeds CrosswordCreator.solve (lines 88-94): enforce node consistency, run
ac3 — whose Boolean result the source DISCARDS — and return the result of
backtracking from the empty assignment. -/
def solve (c : Crossword) (fuel : Nat) : Option Assignment :=
  let dm1 := enforce_node_consistency (initDomains c)
  match ac3 c dm1 none fuel with
  | none => none
  | some (_, dm2) => backtrack c dm2 fuel []

/-! Concrete puzzles used to settle the claims.  Each is a well-formed
instance of the Puzzle Structure interface, realizable on a grid. -/

/-- Slot across of length 2 at row 0, column 0 (cells (0,0) and (0,1)). -/
def vX1 : Variable := ⟨0, 0, Direction.across, 2⟩

/-- Slot down of length 2 at row 0, column 1 (cells (0,1) and (1,1)). -/
def vY1 : Variable := ⟨0, 1, Direction.down, 2⟩

/-- Infeasible puzzle: two length-2 slots crossing at index 1 of vX1 and
index 0 of vY1, vocabulary only "ab"; the crossing needs letter b against
letter a, so arc consistency empties a domain. -/
def cEx1 : Crossword where
  vars := [vX1, vY1]
  words := [['a', 'b']]
  overlaps := fun p q =>
    if p = vX1 ∧ q = vY1 then some (1, 0)
    else if p = vY1 ∧ q = vX1 then some (0, 1)
    else none
  neighbors := fun v => if v = vX1 then [vY1] else if v = vY1 then [vX1] else []

/-- Slot across of length 3 at row 0, column 0 (cells (0,0)..(0,2)). -/
def vX2 : Variable := ⟨0, 0, Direction.across, 3⟩

/-- Slot down of length 2 at row 0, column 0 (cells (0,0) and (1,0)). -/
def vY2 : Variable := ⟨0, 0, Direction.down, 2⟩

/-- Slot down of length 4 at row 0, column 2 (cells (0,2)..(3,2)). -/
def vZ2 : Variable := ⟨0, 2, Direction.down, 4⟩

/-- Puzzle with three slots: vX2 crosses vY2 at (0,0) and vZ2 at (2,0); vY2
and vZ2 do not meet.  Revising (vX2, vY2) removes "abc" from the domain of
vX2, after which the word "cccc" of vZ2 loses its only support in vX2. -/
def cEx2 : Crossword where
  vars := [vX2, vY2, vZ2]
  words := [['a', 'b', 'c'], ['d', 'b', 'd'], ['d', 'z'],
            ['c', 'c', 'c', 'c'], ['d', 'd', 'd', 'd']]
  overlaps := fun p q =>
    if p = vX2 ∧ q = vY2 then some (0, 0)
    else if p = vY2 ∧ q = vX2 then some (0, 0)
    else if p = vX2 ∧ q = vZ2 then some (2, 0)
    else if p = vZ2 ∧ q = vX2 then some (0, 2)
    else none
  neighbors := fun v =>
    if v = vX2 then [vY2, vZ2]
    else if v = vY2 then [vX2]
    else if v = vZ2 then [vX2]
    else []

/-- The domain store of cEx2 after node consistency. -/
def dmEx2 : Domains := enforce_node_consistency (initDomains cEx2)

/-- Slot across of length 2 at row 0, column 0. -/
def vA3 : Variable := ⟨0, 0, Direction.across, 2⟩

/-- Slot across of length 3 at row 2, column 0. -/
def vB3 : Variable := ⟨2, 0, Direction.across, 3⟩

/-- Feasible puzzle with two independent (non-crossing) slots of lengths 2 and
3 and vocabulary {"ab", "cat"}. -/
def cEx3 : Crossword where
  vars := [vA3, vB3]
  words := [['a', 'b'], ['c', 'a', 't']]
  overlaps := fun _ _ => none
  neighbors := fun _ => []

/-- The domain store of cEx3 after node consistency. -/
def dmEx3 : Domains := enforce_node_consistency (initDomains cEx3)

/-- The propagation phase of solve on cEx1: node consistency, then ac3 over
all arcs, exactly as solve computes it before calling backtrack. -/
def propagateEx1 : Option (Bool × Domains) :=
  ac3 cEx1 (enforce_node_consistency (initDomains cEx1)) none 50

/-- The result of ac3 on cEx2, run from the full arc list. -/
def ac3Ex2 : Option (Bool × Domains) := ac3 cEx2 dmEx2 none 100

/-- C1: the claim fails on the code.  On the infeasible puzzle cEx1, ac3
reports failure (first conjunct), yet solve does not return the no-solution
result immediately: it discards the Boolean and unconditionally hands the
propagated domains to backtrack (second conjunct, which holds by the very
definition of solve), and only obtains None after running the backtracking
search (third conjunct). -/
theorem solve_ignores_ac3_failure :
    propagateEx1.map Prod.fst = some false ∧
    solve cEx1 50 = (match propagateEx1 with
      | none => none
      | some (_, dm2) => backtrack cEx1 dm2 50 []) ∧
    solve cEx1 50 = none :=
  ⟨by decide, rfl, by decide⟩

/-- C2: the claim fails on the code.  Tracing ac3 on cEx2: the three arcs
popped before (vX2, vY2) leave the domains untouched (first three conjuncts),
then revising (vX2, vY2) removes a word and leaves the domain of vX2 nonempty
(next two conjuncts); vZ2 is a neighbor of vX2 other than vY2, but what the
loop adds to the worklist is the arc (vX2, vZ2), with vX2 as the FIRST
component; the directed arc (vZ2, vX2) the claim demands is not enqueued. -/
theorem ac3_enqueues_wrong_direction :
    (revise cEx2 dmEx2 vZ2 vX2).1 = dmEx2 ∧ (revise cEx2 dmEx2 vZ2 vX2).2 = false ∧
    (revise cEx2 dmEx2 vY2 vX2).1 = dmEx2 ∧ (revise cEx2 dmEx2 vY2 vX2).2 = false ∧
    (revise cEx2 dmEx2 vX2 vZ2).1 = dmEx2 ∧ (revise cEx2 dmEx2 vX2 vZ2).2 = false ∧
    (revise cEx2 dmEx2 vX2 vY2).2 = true ∧
    domGet (revise cEx2 dmEx2 vX2 vY2).1 vX2 ≠ [] ∧
    vZ2 ∈ cEx2.neighbors vX2 ∧ vZ2 ≠ vY2 ∧
    ac3Enqueue cEx2 vX2 vY2 = [(vX2, vZ2)] ∧
    (vZ2, vX2) ∉ ac3Enqueue cEx2 vX2 vY2 := by decide

/-- C3: the claim fails on the code.  On cEx2, ac3 started from all arcs
returns success (first conjunct), vX2 is a neighbor of vZ2 with overlap
indices (0, 2) (next two conjuncts), yet the arc-consistency invariant does
not hold of the resulting domains: the word "cccc" remains in the domain of
vZ2 although no word of the domain of vX2 matches it at the overlap (last
conjunct).  The enqueueing direction bug shown for C2 is the cause: the arc
(vZ2, vX2) is never re-examined after the domain of vX2 shrinks. -/
theorem ac3_success_without_arc_consistency :
    ac3Ex2.map Prod.fst = some true ∧
    vX2 ∈ cEx2.neighbors vZ2 ∧
    cEx2.overlaps vZ2 vX2 = some (0, 2) ∧
    ac3Ex2.map (fun p => (domGet p.2 vZ2, domGet p.2 vX2)) =
      some ([['c', 'c', 'c', 'c'], ['d', 'd', 'd', 'd']], [['d', 'b', 'd']]) ∧
    ¬ (∀ w ∈ [['c', 'c', 'c', 'c'], ['d', 'd', 'd', 'd']],
        ∃ w2 ∈ [[('d' : Char), 'b', 'd']], charAt w 0 = charAt w2 2) := by decide

/-- Helper: domGet after enforce_node_consistency is the length filter of the
previous domain. -/
theorem domGet_enforce (dm : Domains) (v : Variable) :
    domGet (enforce_node_consistency dm) v
      = (domGet dm v).filter fun w => decide (w.length = v.length) := by
  induction dm with
  | nil => rfl
  | cons p rest ih =>
    by_cases h : p.1 = v
    · simp [domGet, enforce_node_consistency, List.find?_cons, h]
    · simpa [domGet, enforce_node_consistency, List.find?_cons, h] using ih

/-- C8: after enforce_node_consistency, a word is in the domain of a variable
v iff it was there before and its length equals v.length; in particular every
remaining word has the right length and no word of the right length was
removed. -/
theorem enforce_node_consistency_mem (dm : Domains) (v : Variable) (w : Word) :
    w ∈ domGet (enforce_node_consistency dm) v ↔
      w ∈ domGet dm v ∧ w.length = v.length := by
  rw [domGet_enforce]
  simp [List.mem_filter]

/-- C9: assignment_complete returns false on any assignment that maps some
crossword variable to the empty string: such a variable counts as unassigned
even though it is present in the mapping. -/
theorem assignment_complete_false_of_empty_word (c : Crossword) (a : Assignment)
    (h : ∃ v ∈ c.vars, aGet a v = some []) :
    assignment_complete c a = false := by
  obtain ⟨v, hv, hget⟩ := h
  unfold assignment_complete
  rw [Bool.eq_false_iff]
  intro hall
  rw [List.all_eq_true] at hall
  have := hall v hv
  rw [hget] at this
  simp at this

/-- C9 witness: the concrete assignment mapping vA3 to the empty string is
judged incomplete by cEx3. -/
theorem assignment_complete_false_of_empty_word_witness :
    (∃ v ∈ cEx3.vars, aGet [(vA3, ([] : Word))] v = some []) ∧
      assignment_complete cEx3 [(vA3, ([] : Word))] = false :=
  ⟨by decide, assignment_complete_false_of_empty_word cEx3 [(vA3, [])] (by decide)⟩

/-- Helper: updating the domain of x does not change the domain read at any
other variable. -/
theorem domGet_domSet_ne (dm : Domains) (x v : Variable) (ws : List Word)
    (hv : v ≠ x) : domGet (domSet dm x ws) v = domGet dm v := by
  induction dm with
  | nil => rfl
  | cons p rest ih =>
    have hstep : domSet (p :: rest) x ws
        = (if p.1 = x then (x, ws) else p) :: domSet rest x ws := rfl
    rw [hstep]
    by_cases h : p.1 = x
    · have hxv : ¬ (x = v) := fun hh => hv hh.symm
      have hpv : ¬ (p.1 = v) := by rw [h]; exact hxv
      rw [if_pos h]
      show domGet ((x, ws) :: domSet rest x ws) v = domGet (p :: rest) v
      simp only [domGet, List.find?_cons, decide_eq_false hxv, decide_eq_false hpv]
      exact ih
    · rw [if_neg h]
      by_cases h2 : p.1 = v
      · simp [domGet, List.find?_cons, h2]
      · simp only [domGet, List.find?_cons, decide_eq_false h2]
        exact ih

/-- C10: revise (x, y) changes at most the domain of x: the domain of every
other variable reads the same after the call, whatever Boolean it returns. -/
theorem revise_frame (c : Crossword) (dm : Domains) (x y v : Variable)
    (_hnb : y ∈ c.neighbors x) (hv : v ≠ x) :
    domGet (revise c dm x y).1 v = domGet dm v := by
  unfold revise
  match c.overlaps x y with
  | none => rfl
  | some (ix, iy) => exact domGet_domSet_ne dm x v _ hv

/-- C10 witness: on cEx2, revising (vX2, vY2) leaves the domain of the
neighbor vZ2 unchanged. -/
theorem revise_frame_witness :
    vY2 ∈ cEx2.neighbors vX2 ∧ vZ2 ≠ vX2 ∧
      domGet (revise cEx2 dmEx2 vX2 vY2).1 vZ2 = domGet dmEx2 vZ2 :=
  ⟨by decide, by decide, revise_frame cEx2 dmEx2 vX2 vY2 vZ2 (by decide) (by decide)⟩

/-! Properties of the stable insertion sorts that model Python's sorted. -/

theorem insAsc_perm (key : α → Nat) (a : α) (l : List α) :
    (insAsc key a l).Perm (a :: l) := by
  induction l with
  | nil => exact List.Perm.refl _
  | cons b bs ih =>
    by_cases h : key a ≤ key b
    · simp only [insAsc, if_pos h]
      exact List.Perm.refl _
    · simp only [insAsc, if_neg h]
      exact (ih.cons b).trans (List.Perm.swap a b bs)

theorem sortAsc_perm (key : α → Nat) (l : List α) : (sortAsc key l).Perm l := by
  induction l with
  | nil => exact List.Perm.refl _
  | cons a as ih => exact (insAsc_perm key a (sortAsc key as)).trans (ih.cons a)

theorem insAsc_pairwise (key : α → Nat) (a : α) (l : List α)
    (h : l.Pairwise fun x y => key x ≤ key y) :
    (insAsc key a l).Pairwise fun x y => key x ≤ key y := by
  induction l with
  | nil => simp [insAsc]
  | cons b bs ih =>
    rcases List.pairwise_cons.mp h with ⟨hb, hbs⟩
    by_cases hab : key a ≤ key b
    · simp only [insAsc, if_pos hab]
      refine List.pairwise_cons.mpr ⟨?_, h⟩
      intro x hx
      rcases List.mem_cons.mp hx with rfl | hx
      · exact hab
      · exact le_trans hab (hb x hx)
    · simp only [insAsc, if_neg hab]
      refine List.pairwise_cons.mpr ⟨?_, ih hbs⟩
      intro x hx
      rcases List.mem_cons.mp ((insAsc_perm key a bs).mem_iff.mp hx) with rfl | hx2
      · exact le_of_not_le hab
      · exact hb x hx2

theorem sortAsc_pairwise (key : α → Nat) (l : List α) :
    (sortAsc key l).Pairwise fun x y => key x ≤ key y := by
  induction l with
  | nil => simp [sortAsc]
  | cons a as ih => exact insAsc_pairwise key a (sortAsc key as) ih

theorem insDesc_perm (key : α → Nat) (a : α) (l : List α) :
    (insDesc key a l).Perm (a :: l) := by
  induction l with
  | nil => exact List.Perm.refl _
  | cons b bs ih =>
    by_cases h : key b ≤ key a
    · simp only [insDesc, if_pos h]
      exact List.Perm.refl _
    · simp only [insDesc, if_neg h]
      exact (ih.cons b).trans (List.Perm.swap a b bs)

theorem sortDesc_perm (key : α → Nat) (l : List α) : (sortDesc key l).Perm l := by
  induction l with
  | nil => exact List.Perm.refl _
  | cons a as ih => exact (insDesc_perm key a (sortDesc key as)).trans (ih.cons a)

theorem insDesc_pairwise (key : α → Nat) (a : α) (l : List α)
    (h : l.Pairwise fun x y => key y ≤ key x) :
    (insDesc key a l).Pairwise fun x y => key y ≤ key x := by
  induction l with
  | nil => simp [insDesc]
  | cons b bs ih =>
    rcases List.pairwise_cons.mp h with ⟨hb, hbs⟩
    by_cases hab : key b ≤ key a
    · simp only [insDesc, if_pos hab]
      refine List.pairwise_cons.mpr ⟨?_, h⟩
      intro x hx
      rcases List.mem_cons.mp hx with rfl | hx
      · exact hab
      · exact le_trans (hb x hx) hab
    · simp only [insDesc, if_neg hab]
      refine List.pairwise_cons.mpr ⟨?_, ih hbs⟩
      intro x hx
      rcases List.mem_cons.mp ((insDesc_perm key a bs).mem_iff.mp hx) with rfl | hx2
      · exact le_of_not_le hab
      · exact hb x hx2

theorem sortDesc_pairwise (key : α → Nat) (l : List α) :
    (sortDesc key l).Pairwise fun x y => key y ≤ key x := by
  induction l with
  | nil => simp [sortDesc]
  | cons a as ih => exact insDesc_pairwise key a (sortDesc key as) ih

/-- Stability of the ascending insertion, in filter form: the elements whose
key equals any fixed value keep their relative order; an inserted element goes
in front of its key class because the elements it skips have strictly smaller
keys. -/
theorem insAsc_filter (key : α → Nat) (k : Nat) (a : α) (l : List α) :
    (insAsc key a l).filter (fun x => decide (key x = k))
      = (a :: l).filter fun x => decide (key x = k) := by
  induction l with
  | nil => rfl
  | cons b bs ih =>
    by_cases hab : key a ≤ key b
    · simp only [insAsc, if_pos hab]
    · simp only [insAsc, if_neg hab]
      have hba : key b < key a := Nat.lt_of_not_le hab
      by_cases hak : key a = k
      · have hbk : ¬ key b = k := by omega
        simp only [List.filter_cons, decide_eq_false hbk, decide_eq_true hak, ih,
          Bool.false_eq_true, if_false, if_true]
      · by_cases hbk : key b = k
        · simp only [List.filter_cons, decide_eq_false hak, decide_eq_true hbk, ih,
            Bool.false_eq_true, if_false, if_true]
        · simp only [List.filter_cons, decide_eq_false hak, decide_eq_false hbk, ih,
            Bool.false_eq_true, if_false]

/-- Stability of the ascending sort, in filter form. -/
theorem sortAsc_filter (key : α → Nat) (k : Nat) (l : List α) :
    (sortAsc key l).filter (fun x => decide (key x = k))
      = l.filter fun x => decide (key x = k) := by
  induction l with
  | nil => rfl
  | cons a as ih =>
    rw [sortAsc, insAsc_filter]
    by_cases hak : key a = k
    · simp only [List.filter_cons, decide_eq_true hak, if_true, ih]
    · simp only [List.filter_cons, decide_eq_false hak, Bool.false_eq_true, if_false, ih]

/-- Head of the composite sort used by select_unassigned_variable: sorting by
nkey descending then stably by dkey ascending puts first an element of
minimal dkey that, among the elements sharing that dkey, has maximal nkey. -/
theorem sorted_head_min_stable (dkey nkey : α → Nat) (U : List α) (hne : U ≠ []) :
    ∃ v t, sortAsc dkey (sortDesc nkey U) = v :: t ∧ v ∈ U ∧
      (∀ u ∈ U, dkey v ≤ dkey u) ∧
      (∀ u ∈ U, dkey u = dkey v → nkey u ≤ nkey v) := by
  have hperm1 : (sortDesc nkey U).Perm U := sortDesc_perm _ _
  have hperm2 : (sortAsc dkey (sortDesc nkey U)).Perm (sortDesc nkey U) :=
    sortAsc_perm _ _
  have hpermU : (sortAsc dkey (sortDesc nkey U)).Perm U := hperm2.trans hperm1
  have hne2 : sortAsc dkey (sortDesc nkey U) ≠ [] := by
    intro h
    exact hne (List.length_eq_zero.mp (by rw [← hpermU.length_eq, h]; rfl))
  obtain ⟨v, t, hvt⟩ := List.exists_cons_of_ne_nil hne2
  have hsorted := sortAsc_pairwise dkey (sortDesc nkey U)
  rw [hvt] at hsorted
  rcases List.pairwise_cons.mp hsorted with ⟨hmin, _⟩
  refine ⟨v, t, hvt, ?_, ?_, ?_⟩
  · exact hpermU.mem_iff.mp (by rw [hvt]; exact List.mem_cons_self v t)
  · intro u hu
    have hu2 : u ∈ v :: t := by rw [← hvt]; exact hpermU.mem_iff.mpr hu
    rcases List.mem_cons.mp hu2 with rfl | hu2
    · exact Nat.le_refl _
    · exact hmin u hu2
  · intro u hu hdu
    have hfil := sortAsc_filter dkey (dkey v) (sortDesc nkey U)
    rw [hvt] at hfil
    rw [List.filter_cons_of_pos (by simp)] at hfil
    have hdesc : ((sortDesc nkey U).filter fun x => decide (dkey x = dkey v)).Pairwise
        fun x y => nkey y ≤ nkey x :=
      List.Pairwise.filter _ (sortDesc_pairwise nkey U)
    rw [← hfil] at hdesc
    rcases List.pairwise_cons.mp hdesc with ⟨hmax, _⟩
    have hufil : u ∈ (sortDesc nkey U).filter fun x => decide (dkey x = dkey v) := by
      rw [List.mem_filter]
      exact ⟨hperm1.mem_iff.mpr hu, by simp [hdu]⟩
    rw [← hfil] at hufil
    rcases List.mem_cons.mp hufil with rfl | hufil
    · exact Nat.le_refl _
    · exact hmax u hufil

/-- C6: on any assignment leaving at least one variable unassigned,
select_unassigned_variable returns an unassigned variable whose domain size is
minimal among the unassigned variables and whose degree is maximal among the
unassigned variables of that minimal domain size. -/
theorem select_unassigned_variable_mrv_degree (c : Crossword) (dm : Domains)
    (a : Assignment) (hne : c.vars.filter (fun v => (aGet a v).isNone) ≠ []) :
    ∃ v, select_unassigned_variable c dm a = some v ∧
      (aGet a v).isNone = true ∧ v ∈ c.vars ∧
      (∀ u ∈ c.vars, (aGet a u).isNone = true →
        (domGet dm v).length ≤ (domGet dm u).length) ∧
      (∀ u ∈ c.vars, (aGet a u).isNone = true →
        (domGet dm u).length = (domGet dm v).length →
        (c.neighbors u).length ≤ (c.neighbors v).length) := by
  obtain ⟨v, t, hvt, hvU, hmin, hmax⟩ :=
    sorted_head_min_stable (fun v => (domGet dm v).length)
      (fun v => (c.neighbors v).length)
      (c.vars.filter fun v => (aGet a v).isNone) hne
  rcases List.mem_filter.mp hvU with ⟨hvv, hvn⟩
  refine ⟨v, ?_, hvn, hvv, ?_, ?_⟩
  · show (sortAsc (fun v => (domGet dm v).length)
      (sortDesc (fun v => (c.neighbors v).length)
        (c.vars.filter fun v => (aGet a v).isNone))).head? = some v
    rw [hvt]
    rfl
  · intro u hu hun
    exact hmin u (List.mem_filter.mpr ⟨hu, hun⟩)
  · intro u hu hun hdu
    exact hmax u (List.mem_filter.mpr ⟨hu, hun⟩) hdu

/-- C6 witness: on cEx2 with the empty assignment, the selected variable is
vY2, the unique one with the smallest remaining domain. -/
theorem select_unassigned_variable_mrv_degree_witness :
    cEx2.vars.filter (fun v => (aGet [] v).isNone) ≠ [] ∧
      ∃ v, select_unassigned_variable cEx2 dmEx2 [] = some v ∧
        (aGet [] v).isNone = true ∧ v ∈ cEx2.vars ∧
        (∀ u ∈ cEx2.vars, (aGet [] u).isNone = true →
          (domGet dmEx2 v).length ≤ (domGet dmEx2 u).length) ∧
        (∀ u ∈ cEx2.vars, (aGet [] u).isNone = true →
          (domGet dmEx2 u).length = (domGet dmEx2 v).length →
          (cEx2.neighbors u).length ≤ (cEx2.neighbors v).length) :=
  ⟨by decide, select_unassigned_variable_mrv_degree cEx2 dmEx2 [] (by decide)⟩

/-- C7: order_domain_values returns a permutation of the domain of var (the
domain is duplicate-free, being a Python set), sorted ascending by the
elimination count — the sum over the unassigned neighbors of var of the
number of words of the neighbor's domain that mismatch at the overlap. -/
theorem order_domain_values_sorted_perm (c : Crossword) (dm : Domains)
    (a : Assignment) (var : Variable) (_hnd : (domGet dm var).Nodup) :
    (order_domain_values c dm a var).Perm (domGet dm var) ∧
      (order_domain_values c dm a var).Pairwise fun w1 w2 =>
        eliminationCount c dm a var w1 ≤ eliminationCount c dm a var w2 :=
  ⟨sortAsc_perm _ _, sortAsc_pairwise _ _⟩

/-- C7 witness: on cEx2 with the empty assignment, the ordering of the domain
of vX2 is the permutation putting "dbd" (count 1) before "abc" (count 2). -/
theorem order_domain_values_sorted_perm_witness :
    (domGet dmEx2 vX2).Nodup ∧
      ((order_domain_values cEx2 dmEx2 [] vX2).Perm (domGet dmEx2 vX2) ∧
        (order_domain_values cEx2 dmEx2 [] vX2).Pairwise fun w1 w2 =>
          eliminationCount cEx2 dmEx2 [] vX2 w1 ≤ eliminationCount cEx2 dmEx2 [] vX2 w2) :=
  ⟨by decide, order_domain_values_sorted_perm cEx2 dmEx2 [] vX2 (by decide)⟩

/-! Dictionary lemmas for assignments, and the correctness of the
consistency checker. -/

/-- Helper: a successful lookup comes from an entry of the assignment. -/
theorem aGet_mem (a : Assignment) (v : Variable) (w : Word)
    (h : aGet a v = some w) : (v, w) ∈ a := by
  unfold aGet at h
  match hf : a.find? fun p => decide (p.1 = v) with
  | none => simp [hf] at h
  | some p =>
    simp only [hf, Option.map_some', Option.some.injEq] at h
    have hkey : p.1 = v := by
      have hfind := List.find?_some hf
      simpa using hfind
    have hmem : p ∈ a := List.mem_of_find?_eq_some hf
    rw [← hkey, ← h]
    exact hmem

/-- Helper: when the keys are duplicate-free, every entry is found by its
key. -/
theorem aGet_of_mem (a : Assignment) (p : Variable × Word)
    (hnd : (a.map Prod.fst).Nodup) (hp : p ∈ a) : aGet a p.1 = some p.2 := by
  induction a with
  | nil => cases hp
  | cons q rest ih =>
    rw [List.map_cons, List.nodup_cons] at hnd
    rcases List.mem_cons.mp hp with rfl | hp2
    · unfold aGet
      rw [List.find?_cons, decide_eq_true rfl]
      rfl
    · have hq : ¬ (q.1 = p.1) := by
        intro he
        exact hnd.1 (he ▸ List.mem_map_of_mem Prod.fst hp2)
      unfold aGet
      rw [List.find?_cons, decide_eq_false hq]
      exact ih hnd.2 hp2

/-- Spec clause (a): no two assigned variables map to the same word. -/
def distinctWords (a : Assignment) : Prop :=
  ∀ p ∈ a, ∀ q ∈ a, p.1 ≠ q.1 → p.2 ≠ q.2

/-- Spec clause (b): every assigned word has the length of its variable. -/
def lengthsOk (a : Assignment) : Prop :=
  ∀ p ∈ a, (p.2 : Word).length = p.1.length

/-- Spec clause (c): every pair of assigned neighboring variables agrees at
the overlap indices. -/
def overlapsOk (c : Crossword) (a : Assignment) : Prop :=
  ∀ x y ix iy wx wy, y ∈ c.neighbors x → c.overlaps x y = some (ix, iy) →
    aGet a x = some wx → aGet a y = some wy → charAt wx ix = charAt wy iy

/-- The distinctness check of consistent decides spec clause (a). -/
theorem distinctCheck_iff (a : Assignment) (hnd : (a.map Prod.fst).Nodup) :
    distinctCheck a = true ↔ distinctWords a := by
  unfold distinctCheck
  rw [decide_eq_true_iff]
  constructor
  · intro hlen p hp q hq hne hw
    have heq : (a.map Prod.snd).dedup = a.map Prod.snd :=
      (List.dedup_sublist _).eq_of_length hlen
    have hvnd : (a.map Prod.snd).Nodup := heq ▸ List.nodup_dedup _
    exact hne (congrArg Prod.fst (List.inj_on_of_nodup_map hvnd hp hq hw))
  · intro hd
    have hvnd : (a.map Prod.snd).Nodup := by
      refine List.Nodup.map_on ?_ (List.Nodup.of_map Prod.fst hnd)
      intro p hp q hq hw
      by_contra hne
      by_cases hk : p.1 = q.1
      · exact hne (List.inj_on_of_nodup_map hnd hp hq hk)
      · exact hd p hp q hq hk hw
    rw [hvnd.dedup]

/-- The length check of consistent decides spec clause (b), provided the
assignment only mentions crossword variables (the source only length-checks
those). -/
theorem lengthCheck_iff (c : Crossword) (a : Assignment)
    (hnd : (a.map Prod.fst).Nodup) (hsub : ∀ p ∈ a, p.1 ∈ c.vars) :
    lengthCheck c a = true ↔ lengthsOk a := by
  unfold lengthCheck
  rw [Bool.not_eq_true', List.any_eq_false]
  constructor
  · intro h p hp
    have h2 := h p.1 (hsub p hp)
    rw [aGet_of_mem a p hnd hp] at h2
    simpa using h2
  · intro h v hv
    match hg : aGet a v with
    | none => simp
    | some w =>
      have h2 := h (v, w) (aGet_mem a v w hg)
      simp [h2]

/-- The conflict check of consistent decides spec clause (c). -/
theorem conflictCheck_iff (c : Crossword) (a : Assignment) :
    conflictCheck c a = true ↔ overlapsOk c a := by
  unfold conflictCheck
  rw [Bool.not_eq_true', List.any_eq_false]
  constructor
  · intro h x y ix iy wx wy hnb hov hgx hgy
    have hx : x ∈ a.map Prod.fst := by
      simpa using List.mem_map_of_mem Prod.fst (aGet_mem a x wx hgx)
    have h2 := h x hx
    by_contra hne
    apply h2
    rw [List.any_eq_true]
    refine ⟨y, hnb, ?_⟩
    rw [hov, hgx, hgy]
    exact decide_eq_true hne
  · intro hov v _
    intro hany
    rw [List.any_eq_true] at hany
    obtain ⟨nb, hnb, hf⟩ := hany
    match ho : c.overlaps v nb, hgv : aGet a v, hgn : aGet a nb with
    | none, _, _ => rw [ho] at hf; simp at hf
    | some (i1, i2), none, _ => rw [ho, hgv] at hf; simp at hf
    | some (i1, i2), some wv, none => rw [ho, hgv, hgn] at hf; simp at hf
    | some (i1, i2), some wv, some wn =>
      rw [ho, hgv, hgn] at hf
      exact of_decide_eq_true hf (hov v nb i1 i2 wv wn hnb ho hgv hgn)

/-- C4: consistent returns true iff the assignment satisfies the three spec
clauses — pairwise-distinct words, matching lengths, and agreement of every
assigned neighboring pair at the overlap indices.  The assignment is a
dict (duplicate-free keys) over the crossword's variables. -/
theorem consistent_iff (c : Crossword) (a : Assignment)
    (hnd : (a.map Prod.fst).Nodup) (hsub : ∀ p ∈ a, p.1 ∈ c.vars) :
    consistent c a = true ↔ distinctWords a ∧ lengthsOk a ∧ overlapsOk c a := by
  unfold consistent
  rw [Bool.and_eq_true, Bool.and_eq_true, distinctCheck_iff a hnd,
    lengthCheck_iff c a hnd hsub, conflictCheck_iff c a, and_assoc]

/-- C4 witness: the iff instantiated at a concrete two-entry assignment on
cEx2 (which consistent accepts: distinct words, right lengths, and the single
assigned overlap agrees on letter d). -/
theorem consistent_iff_witness :
    ((([(vX2, ['d', 'b', 'd']), (vY2, ['d', 'z'])] : Assignment).map Prod.fst).Nodup ∧
      ∀ p ∈ ([(vX2, ['d', 'b', 'd']), (vY2, ['d', 'z'])] : Assignment), p.1 ∈ cEx2.vars) ∧
    (consistent cEx2 [(vX2, ['d', 'b', 'd']), (vY2, ['d', 'z'])] = true ↔
      distinctWords [(vX2, ['d', 'b', 'd']), (vY2, ['d', 'z'])] ∧
        lengthsOk [(vX2, ['d', 'b', 'd']), (vY2, ['d', 'z'])] ∧
        overlapsOk cEx2 [(vX2, ['d', 'b', 'd']), (vY2, ['d', 'z'])]) :=
  ⟨⟨by decide, by decide⟩,
    consistent_iff cEx2 [(vX2, ['d', 'b', 'd']), (vY2, ['d', 'z'])] (by decide) (by decide)⟩

/-! Soundness of the backtracking search. -/

/-- Soundness of the value loop: any assignment it returns was produced by the
recursive search bt on an extension that passed consistent, so any property
established by bt under that precondition holds of it. -/
theorem tryValues_sound (c : Crossword) (bt : Assignment → Option Assignment)
    (P : Assignment → Prop)
    (hbt : ∀ a2 r, consistent c a2 = true → bt a2 = some r → P r)
    (a : Assignment) (var : Variable) :
    ∀ ws r, tryValues c bt a var ws = some r → P r := by
  intro ws
  induction ws with
  | nil => intro r h; simp [tryValues] at h
  | cons w ws ih =>
    intro r h
    rw [tryValues] at h
    by_cases hc : consistent c (dinsert a var w) = true
    · rw [if_pos hc] at h
      match hb : bt (dinsert a var w) with
      | some r2 =>
        simp only [hb] at h
        by_cases he : r2.isEmpty = true
        · rw [if_pos he] at h
          exact ih r h
        · rw [if_neg he] at h
          injection h with h2
          subst h2
          exact hbt _ r2 hc hb
      | none =>
        simp only [hb] at h
        exact ih r h
    · rw [if_neg hc] at h
      exact ih r h

/-- The empty assignment is consistent. -/
theorem consistent_nil (c : Crossword) : consistent c [] = true := by
  have h1 : distinctCheck [] = true := rfl
  have h2 : lengthCheck c [] = true := by
    unfold lengthCheck
    rw [Bool.not_eq_true', List.any_eq_false]
    intro v _
    simp [aGet]
  have h3 : conflictCheck c [] = true := rfl
  unfold consistent
  rw [h1, h2, h3]
  rfl

/-- Soundness of backtrack: starting from any consistent assignment, any
assignment it returns is complete and consistent. -/
theorem backtrack_sound (c : Crossword) (dm : Domains) :
    ∀ fuel a r, consistent c a = true → backtrack c dm fuel a = some r →
      assignment_complete c r = true ∧ consistent c r = true := by
  intro fuel
  induction fuel with
  | zero => intro a r _ h; simp [backtrack] at h
  | succ fuel ih =>
    intro a r hca h
    rw [backtrack] at h
    by_cases hcomp : assignment_complete c a = true
    · rw [if_pos hcomp] at h
      cases h
      exact ⟨hcomp, hca⟩
    · rw [if_neg hcomp] at h
      match hs : select_unassigned_variable c dm a with
      | none => simp [hs] at h
      | some var =>
        simp only [hs] at h
        exact tryValues_sound c (backtrack c dm fuel) _
          (fun a2 r2 h1 h2 => ih a2 r2 h1 h2) a var _ r h

/-- C5: whenever backtrack, started from the empty assignment, returns an
assignment, that assignment maps every crossword variable to a word and
consistent holds of it. -/
theorem backtrack_from_empty_sound (c : Crossword) (dm : Domains) (fuel : Nat)
    (r : Assignment) (h : backtrack c dm fuel [] = some r) :
    (∀ v ∈ c.vars, ∃ w, aGet r v = some w) ∧ consistent c r = true := by
  obtain ⟨hcomp, hcons⟩ := backtrack_sound c dm fuel [] r (consistent_nil c) h
  refine ⟨?_, hcons⟩
  intro v hv
  rw [assignment_complete, List.all_eq_true] at hcomp
  have h2 := hcomp v hv
  match hg : aGet r v with
  | some w => exact ⟨w, rfl⟩
  | none => rw [hg] at h2; simp at h2

/-- C5 witness: on the feasible puzzle cEx3, backtrack from the empty
assignment returns the assignment vA3 to "ab" and vB3 to "cat", which is
complete and consistent. -/
theorem backtrack_from_empty_sound_witness :
    backtrack cEx3 dmEx3 10 [] = some [(vA3, ['a', 'b']), (vB3, ['c', 'a', 't'])] ∧
    ((∀ v ∈ cEx3.vars,
        ∃ w, aGet [(vA3, ['a', 'b']), (vB3, ['c', 'a', 't'])] v = some w) ∧
      consistent cEx3 [(vA3, ['a', 'b']), (vB3, ['c', 'a', 't'])] = true) :=
  ⟨by decide, backtrack_from_empty_sound cEx3 dmEx3 10 _ (by decide)⟩

end CrosswordCSP
